import Mathlib

/-!
Shallow embedding of the string utilities in src/string_util.cpp of the
libtorrent excerpt: character classification, the locale-independent
integer formatter, the listen-interface parser and printer, the two
comma-separated-list parsers and the quote-aware splitter.  Strings are
modelled as List Char, machine integers as Int/Nat with explicit
wrap-around where the source relies on it.
-/

namespace StringUtil

/-- The listen_interface_t record from the libtorrent headers: device text,
port number and ssl flag. -/
structure listen_interface_t where
  device : List Char
  port : Int
  ssl : Bool
deriving DecidableEq, Repr

/-- The is_space predicate of string_util.cpp: space, tab, newline, carriage
return, form feed and vertical tab. -/
def is_space (c : Char) : Bool :=
  c = ' ' || c = '\t' || c = '\n' || c = '\r' || c = '\x0c' || c = '\x0b'

/-- Modelled from the spec: is_digit is declared in the repository header,
which is not part of the excerpt; section 4.1 (CharClass) specifies it as the
decimal-digit test on a single byte. -/
def is_digit (c : Char) : Bool :=
  '0' ≤ c && c ≤ '9'

/-- The digit-emitting do-while loop of to_string: it writes un mod 10,
divides by 10 and repeats while the quotient is non-zero; since the source
writes into the buffer from the back, the digits come out most significant
first. -/
def uintDigits (un : Nat) : List Char :=
  if h : un / 10 = 0 then [Char.ofNat ('0'.toNat + un % 10)]
  else uintDigits (un / 10) ++ [Char.ofNat ('0'.toNat + un % 10)]
termination_by un
decreasing_by omega

/-- The to_string routine of string_util.cpp: the magnitude is computed in
unsigned 64-bit arithmetic (modelled with explicit mod 2 ^ 64) so that
INT64_MIN does not overflow during negation; a minus sign is prepended for
negative inputs. -/
def to_string (n : Int) : List Char :=
  let un : Nat :=
    if n < 0 then ((2 ^ 64 - 1) - (n % 2 ^ 64).toNat + 1) % 2 ^ 64
    else (n % 2 ^ 64).toNat
  (if n < 0 then ['-'] else []) ++ uintDigits un

/-- The skip-spaces loops that appear throughout the parsers. -/
def skipSpaces (s : List Char) : List Char := s.dropWhile is_space

/-- The device-token scan of parse_listen_interfaces: the bracketed branch
consumes the opening bracket, collects bytes up to the closing bracket and
then skips to the next colon; the plain branch collects bytes up to
whitespace or a colon.  Returns the device text and the rest of the input. -/
def parseDevice (s : List Char) : List Char × List Char :=
  match s with
  | c :: rest =>
    if c = '[' then
      (rest.takeWhile (fun x => x ≠ ']'),
        (rest.dropWhile (fun x => x ≠ ']')).dropWhile (fun x => x ≠ ':'))
    else
      (s.takeWhile (fun x => !is_space x && x ≠ ':'),
        s.dropWhile (fun x => !is_space x && x ≠ ':'))
  | [] =>
    (s.takeWhile (fun x => !is_space x && x ≠ ':'),
      s.dropWhile (fun x => !is_space x && x ≠ ':'))

/-- The loop condition of the port scan in parse_listen_interfaces. -/
def portDigit (c : Char) : Bool := is_digit c && c ≠ ','

/-- atoi restricted to the all-digit strings parse_listen_interfaces feeds it
(the port scan only collects decimal digits). -/
def atoi_digits (s : List Char) : Nat :=
  s.foldl (fun a c => a * 10 + (c.toNat - '0'.toNat)) 0

/-- The port validation of parse_listen_interfaces: empty or over-long port
text, or a parsed value outside 0..65535, yields the sentinel -1. -/
def portValue (port : List Char) : Int :=
  if port = [] ∨ port.length > 5 then -1
  else
    let p : Int := (atoi_digits port : Nat)
    if p < 0 ∨ p > 65535 then -1 else p

/-- The potential-SSL step of parse_listen_interfaces: an s right here sets
the ssl flag and is consumed. -/
def parseSsl (s : List Char) : Bool × List Char :=
  match s with
  | c :: r => if c = 's' then (true, r) else (false, s)
  | [] => (false, s)

/-- The end-of-entry step of parse_listen_interfaces: skip to the next comma
or end of input, then consume the comma if present. -/
def skipEntryTail (s : List Char) : List Char :=
  match s.dropWhile (fun c => c ≠ ',') with
  | c :: rr => if c = ',' then rr else c :: rr
  | [] => []

/-- Everything parse_listen_interfaces does after the mandatory colon of one
entry: port scan and validation, ssl flag, skip to the comma.  Returns the
entry (none when the port was invalid) and the remaining input. -/
def parseTail (dev : List Char) (s4 : List Char) :
    Option listen_interface_t × List Char :=
  let s5 := skipSpaces s4
  let port := portValue (s5.takeWhile portDigit)
  let sslv := parseSsl (skipSpaces (s5.dropWhile portDigit))
  (if port ≥ 0 then some ⟨dev, port, sslv.1⟩ else none, skipEntryTail sslv.2)

/-- One iteration of the parse_listen_interfaces loop, starting after the
leading-space skip: device token, mandatory colon, then the tail of the
entry.  none models the early return of the whole parse when the colon is
missing. -/
def parseEntry (s : List Char) : Option (Option listen_interface_t × List Char) :=
  match skipSpaces (parseDevice s).2 with
  | c :: s4 => if c = ':' then some (parseTail (parseDevice s).1 s4) else none
  | [] => none

theorem length_dropWhile_le {α : Type} (p : α → Bool) (l : List α) :
    (l.dropWhile p).length ≤ l.length := by
  induction l with
  | nil => simp
  | cons a t ih => by_cases h : p a <;> simp [List.dropWhile_cons, h] <;> omega

theorem length_skipSpaces_le (s : List Char) : (skipSpaces s).length ≤ s.length :=
  length_dropWhile_le _ _

theorem length_parseDevice_snd_le (s : List Char) :
    ((parseDevice s).2).length ≤ s.length := by
  match s with
  | [] => simp [parseDevice]
  | c :: rest =>
    simp only [parseDevice]
    by_cases h : c = '['
    · simp only [h, if_pos rfl]
      calc ((rest.dropWhile (fun x => x ≠ ']')).dropWhile (fun x => x ≠ ':')).length
          ≤ (rest.dropWhile (fun x => x ≠ ']')).length := length_dropWhile_le _ _
        _ ≤ rest.length := length_dropWhile_le _ _
        _ ≤ (c :: rest).length := by simp
    · simp only [if_neg h]
      exact length_dropWhile_le _ _

theorem length_parseSsl_snd_le (s : List Char) : ((parseSsl s).2).length ≤ s.length := by
  match s with
  | [] => simp [parseSsl]
  | c :: r =>
    simp only [parseSsl]
    by_cases h : c = 's' <;> simp [h]

theorem length_skipEntryTail_le (s : List Char) : (skipEntryTail s).length ≤ s.length := by
  have h0 : (s.dropWhile (fun c => c ≠ ',')).length ≤ s.length := length_dropWhile_le _ _
  unfold skipEntryTail
  match hd : s.dropWhile (fun c => c ≠ ',') with
  | [] => simp
  | c :: rr =>
    rw [hd] at h0
    by_cases h : c = ',' <;> simp [h] <;> simp at h0 <;> omega

theorem length_parseTail_snd_le (dev s4 : List Char) :
    ((parseTail dev s4).2).length ≤ s4.length := by
  unfold parseTail
  simp only []
  calc (skipEntryTail (parseSsl (skipSpaces ((skipSpaces s4).dropWhile portDigit))).2).length
      ≤ ((parseSsl (skipSpaces ((skipSpaces s4).dropWhile portDigit))).2).length :=
        length_skipEntryTail_le _
    _ ≤ (skipSpaces ((skipSpaces s4).dropWhile portDigit)).length := length_parseSsl_snd_le _
    _ ≤ ((skipSpaces s4).dropWhile portDigit).length := length_skipSpaces_le _
    _ ≤ (skipSpaces s4).length := length_dropWhile_le _ _
    _ ≤ s4.length := length_skipSpaces_le _

theorem parseEntry_rest_lt {s : List Char} {oi : Option listen_interface_t}
    {rest : List Char} (h : parseEntry s = some (oi, rest)) :
    rest.length < s.length := by
  unfold parseEntry at h
  match hm : skipSpaces (parseDevice s).2 with
  | [] => rw [hm] at h; exact absurd h (by simp)
  | c :: s4 =>
    rw [hm] at h
    have h' : (if c = ':' then some (parseTail (parseDevice s).1 s4) else none)
        = some (oi, rest) := h
    by_cases hc : c = ':'
    · rw [if_pos hc] at h'
      have h1 : rest = (parseTail (parseDevice s).1 s4).2 := by
        have hx := (Option.some.injEq _ _).mp h'
        exact (congrArg Prod.snd hx).symm
      have h2 : ((parseTail (parseDevice s).1 s4).2).length ≤ s4.length :=
        length_parseTail_snd_le _ _
      have h3 : (skipSpaces (parseDevice s).2).length ≤ s.length :=
        le_trans (length_skipSpaces_le _) (length_parseDevice_snd_le _)
      rw [hm] at h3
      simp at h3
      have h4 : rest.length = ((parseTail (parseDevice s).1 s4).2).length := by rw [h1]
      omega
    · rw [if_neg hc] at h'
      exact absurd h' (by simp)

/-- The main loop of parse_listen_interfaces: skip leading spaces, stop at end
of input, parse one entry; a missing colon ends the whole parse, an invalid
port drops just the one entry. -/
def parseLoop (s : List Char) : List listen_interface_t :=
  if s = [] then []
  else if skipSpaces s = [] then []
  else
    match hp : parseEntry (skipSpaces s) with
    | none => []
    | some (some i, rest) => i :: parseLoop rest
    | some (none, rest) => parseLoop rest
termination_by s.length
decreasing_by
  all_goals
    have h1 := parseEntry_rest_lt hp
    have h2 := length_skipSpaces_le s
    omega

/-- The parse_listen_interfaces routine of string_util.cpp. -/
def parse_listen_interfaces (s : List Char) : List listen_interface_t :=
  parseLoop s

/-- Structural twin of parseLoop with explicit fuel, used only to let the
kernel evaluate the parser on concrete inputs. -/
def parseLoopFuel : Nat → List Char → List listen_interface_t
  | 0, _ => []
  | fuel + 1, s =>
    if s = [] then []
    else if skipSpaces s = [] then []
    else
      match parseEntry (skipSpaces s) with
      | none => []
      | some (some i, rest) => i :: parseLoopFuel fuel rest
      | some (none, rest) => parseLoopFuel fuel rest

theorem parseLoopFuel_eq : ∀ (fuel : Nat) (s : List Char), s.length < fuel →
    parseLoopFuel fuel s = parseLoop s := by
  intro fuel
  induction fuel with
  | zero => intro s h; exact absurd h (by omega)
  | succ n ih =>
    intro s h
    rw [parseLoop]
    by_cases h1 : s = []
    · simp [parseLoopFuel, h1]
    by_cases h2 : skipSpaces s = []
    · simp [parseLoopFuel, h1, h2]
    simp only [parseLoopFuel, if_neg h1, if_neg h2]
    cases hpe : parseEntry (skipSpaces s) with
    | none => simp only [hpe]
    | some v =>
      have hlt : v.2.length < s.length := by
        have := @parseEntry_rest_lt (skipSpaces s) v.1 v.2 (by rw [hpe])
        have h3 := length_skipSpaces_le s
        omega
      match v with
      | (some i, rest) =>
        simp only [hpe]
        rw [ih rest (by simp at hlt; omega)]
      | (none, rest) =>
        simp only [hpe]
        rw [ih rest (by simp at hlt; omega)]

/-- Evaluation form of parse_listen_interfaces: with fuel one above the input
length the structural twin agrees with the parser, so the kernel can compute
it. -/
theorem parse_eval (s : List Char) :
    parse_listen_interfaces s = parseLoopFuel (s.length + 1) s :=
  (parseLoopFuel_eq (s.length + 1) s (by omega)).symm

theorem parseLoop_entry_none {s : List Char}
    (h : parseEntry (skipSpaces s) = none) : parseLoop s = [] := by
  rw [parseLoop]
  by_cases h1 : s = []
  · rw [if_pos h1]
  by_cases h2 : skipSpaces s = []
  · rw [if_neg h1, if_pos h2]
  rw [if_neg h1, if_neg h2]
  split
  · rfl
  · rename_i i rest heq
    rw [h] at heq
    exact absurd heq (by simp)
  · rename_i rest heq
    rw [h] at heq
    exact absurd heq (by simp)

theorem parseLoop_entry_skip {s rest : List Char}
    (h : parseEntry (skipSpaces s) = some (none, rest)) :
    parseLoop s = parseLoop rest := by
  have h2 : skipSpaces s ≠ [] := by
    intro hcon
    rw [hcon, show parseEntry ([] : List Char) = none from rfl] at h
    exact absurd h (by simp)
  have h1 : s ≠ [] := by
    intro hcon
    apply h2
    rw [hcon]
    rfl
  rw [parseLoop, if_neg h1, if_neg h2]
  split
  · rename_i heq
    rw [h] at heq
    exact absurd heq (by simp)
  · rename_i i r2 heq
    rw [h] at heq
    exact absurd heq (by simp)
  · rename_i r2 heq
    rw [h] at heq
    simp only [Option.some.injEq, Prod.mk.injEq, true_and] at heq
    rw [heq]

theorem parseLoop_entry_keep {s rest : List Char} {i : listen_interface_t}
    (h : parseEntry (skipSpaces s) = some (some i, rest)) :
    parseLoop s = i :: parseLoop rest := by
  have h2 : skipSpaces s ≠ [] := by
    intro hcon
    rw [hcon, show parseEntry ([] : List Char) = none from rfl] at h
    exact absurd h (by simp)
  have h1 : s ≠ [] := by
    intro hcon
    apply h2
    rw [hcon]
    rfl
  rw [parseLoop, if_neg h1, if_neg h2]
  split
  · rename_i heq
    rw [h] at heq
    exact absurd heq (by simp)
  · rename_i j r2 heq
    rw [h] at heq
    simp only [Option.some.injEq, Prod.mk.injEq] at heq
    rw [heq.1, heq.2]
  · rename_i r2 heq
    rw [h] at heq
    exact absurd heq (by simp)

/-- One printed entry of print_listen_interfaces: the device (bracketed when
the collaborator classifies it as an IPv6 literal), a colon, the port via
to_string, and a trailing s when the ssl flag is set.

Modelled from the spec: the make_address_v6 validity check lives outside the
excerpt; per sections 1 and 4.6 it is a collaborator-supplied boolean
predicate deciding whether the device text is a valid IPv6 literal, passed
here as the parameter isV6. -/
def printOne (isV6 : List Char → Bool) (i : listen_interface_t) : List Char :=
  (if isV6 i.device then '[' :: i.device ++ [']'] else i.device)
    ++ ':' :: (to_string i.port ++ (if i.ssl then ['s'] else []))

/-- The print_listen_interfaces routine of string_util.cpp: a comma is
prepended before every entry except when the accumulated output is still
empty. -/
def print_listen_interfaces (isV6 : List Char → Bool)
    (l : List listen_interface_t) : List Char :=
  l.foldl (fun ret i => (if ret.isEmpty then ret else ret ++ [',']) ++ printOne isV6 i) []

/-- The first scan loop of split_string: starting from position 0, it
increments the position for each byte of the tail and stops just after the
first closing quote.  Returns the final position. -/
def quotePos : List Char → Nat
  | [] => 0
  | c :: rest => if c = '"' then 1 else 1 + quotePos rest

/-- The second scan loop of split_string: the number of further position
increments and the found_sep flag (1 when the separator was hit). -/
def sepScan (l : List Char) (sep : Char) : Nat × Nat :=
  match l with
  | [] => (0, 0)
  | c :: rest =>
    if c = sep then (0, 1)
    else ((sepScan rest sep).1 + 1, (sepScan rest sep).2)

/-- The split_string routine of string_util.cpp: an optional quote-skipping
scan picks the start position, then a byte-by-byte scan looks for the
separator; the result is the slice before the final position and the slice
after it (skipping the separator itself when one was found). -/
def split_string (last : List Char) (sep : Char) : List Char × List Char :=
  match last with
  | [] => ([], [])
  | c0 :: tail0 =>
    let pos0 := if c0 = '"' ∧ sep ≠ '"' then quotePos tail0 else 0
    let sc := sepScan (last.drop pos0) sep
    (last.take (pos0 + sc.1), last.drop (pos0 + sc.1 + sc.2))

/-- The trailing-space trim loop (soft_end) of the comma-separated-list
parsers: it walks back from the end of the field over whitespace. -/
def rtrim (l : List Char) : List Char :=
  (l.reverse.dropWhile is_space).reverse

/-- The loop of parse_comma_separated_string, acting on the remaining input:
skip leading spaces, cut the field at the next comma, trim trailing spaces,
emit it, and continue after the comma; when no comma remains the loop body
runs once more and then start = end + 1 passes the end of input. -/
def pcssLoop (s : List Char) : List (List Char) :=
  if s = [] then []
  else
    rtrim ((s.dropWhile is_space).takeWhile (fun c => c ≠ ',')) ::
      (match hr : (s.dropWhile is_space).dropWhile (fun c => c ≠ ',') with
        | c :: r => if c = ',' then pcssLoop r else []
        | [] => [])
termination_by s.length
decreasing_by
  have h1 : ((s.dropWhile is_space).dropWhile (fun c => c ≠ ',')).length ≤ s.length :=
    le_trans (length_dropWhile_le _ _) (length_dropWhile_le _ _)
  rw [hr] at h1
  simp at h1
  omega

/-- The parse_comma_separated_string routine of string_util.cpp. -/
def parse_comma_separated_string (s : List Char) : List (List Char) :=
  pcssLoop s

/-- Structural twin of pcssLoop with explicit fuel, used only for kernel
evaluation on concrete inputs. -/
def pcssLoopFuel : Nat → List Char → List (List Char)
  | 0, _ => []
  | fuel + 1, s =>
    if s = [] then []
    else
      rtrim ((s.dropWhile is_space).takeWhile (fun c => c ≠ ',')) ::
        (match (s.dropWhile is_space).dropWhile (fun c => c ≠ ',') with
          | c :: r => if c = ',' then pcssLoopFuel fuel r else []
          | [] => [])

theorem pcssLoopFuel_eq : ∀ (fuel : Nat) (s : List Char), s.length < fuel →
    pcssLoopFuel fuel s = pcssLoop s := by
  intro fuel
  induction fuel with
  | zero => intro s h; exact absurd h (by omega)
  | succ n ih =>
    intro s h
    rw [pcssLoop]
    by_cases h1 : s = []
    · simp [pcssLoopFuel, h1]
    simp only [pcssLoopFuel, if_neg h1]
    have h2 : ((s.dropWhile is_space).dropWhile (fun c => c ≠ ',')).length ≤ s.length :=
      le_trans (length_dropWhile_le _ _) (length_dropWhile_le _ _)
    cases hr : (s.dropWhile is_space).dropWhile (fun c => c ≠ ',') with
    | nil => simp only [hr]
    | cons c r =>
      simp only [hr]
      rw [hr] at h2
      simp at h2
      by_cases hc : c = ','
      · rw [if_pos hc, if_pos hc, ih r (by omega)]
      · rw [if_neg hc, if_neg hc]

/-- Evaluation form of parse_comma_separated_string. -/
theorem pcss_eval (s : List Char) :
    parse_comma_separated_string s = pcssLoopFuel (s.length + 1) s :=
  (pcssLoopFuel_eq (s.length + 1) s (by omega)).symm

/-- atoi as parse_comma_separated_string_port uses it on the text after the
last colon: skip leading whitespace, take an optional sign, then the longest
decimal-digit prefix; no digits yield 0.  The source's int overflow on
over-long digit strings is undefined behaviour in C and is not modelled; no
claim depends on the numeric value. -/
def atoi_c (s : List Char) : Int :=
  match s.dropWhile is_space with
  | [] => 0
  | c :: r =>
    if c = '-' then -(atoi_digits (r.takeWhile is_digit) : Int)
    else if c = '+' then (atoi_digits (r.takeWhile is_digit) : Int)
    else (atoi_digits ((c :: r).takeWhile is_digit) : Int)

/-- The per-field entry construction of parse_comma_separated_string_port,
given the field text f (leading spaces already skipped): the field is split
at its last colon, the name part is trimmed of trailing spaces and of one
layer of brackets, the port part goes through atoi.  Splitting at the last
colon is realised by reversing and splitting at the first colon. -/
def mkEntry (f : List Char) : List Char × Int :=
  let port_text := (f.reverse.takeWhile (fun c => c ≠ ':')).reverse
  let name_raw := ((f.reverse.dropWhile (fun c => c ≠ ':')).drop 1).reverse
  let n1 := rtrim name_raw
  let n2 := if f.head? = some '[' then n1.drop 1 else n1
  let n3 := if n2.getLast? = some ']' then n2.dropLast else n2
  (n3, atoi_c port_text)

/-- The loop of parse_comma_separated_string_port on the remaining input.
The source locates the last colon with find_last_of over the whole prefix up
to the comma and requires its position to exceed the post-space start
position; that position exists iff the trimmed field contains a colon past
its first byte (a colon in an earlier field lies before start, the byte at
the comma is not a colon), which is the condition used here. -/
def pcspLoop (s : List Char) : List (List Char × Int) :=
  if s = [] then []
  else
    (if ':' ∈ ((s.dropWhile is_space).takeWhile (fun c => c ≠ ',')).drop 1 then
      [mkEntry ((s.dropWhile is_space).takeWhile (fun c => c ≠ ','))]
    else []) ++
      (match hr : (s.dropWhile is_space).dropWhile (fun c => c ≠ ',') with
        | c :: r => if c = ',' then pcspLoop r else []
        | [] => [])
termination_by s.length
decreasing_by
  have h1 : ((s.dropWhile is_space).dropWhile (fun c => c ≠ ',')).length ≤ s.length :=
    le_trans (length_dropWhile_le _ _) (length_dropWhile_le _ _)
  rw [hr] at h1
  simp at h1
  omega

/-- The parse_comma_separated_string_port routine of string_util.cpp. -/
def parse_comma_separated_string_port (s : List Char) : List (List Char × Int) :=
  pcspLoop s

/-- Structural twin of pcspLoop with explicit fuel, used only for kernel
evaluation on concrete inputs. -/
def pcspLoopFuel : Nat → List Char → List (List Char × Int)
  | 0, _ => []
  | fuel + 1, s =>
    if s = [] then []
    else
      (if ':' ∈ ((s.dropWhile is_space).takeWhile (fun c => c ≠ ',')).drop 1 then
        [mkEntry ((s.dropWhile is_space).takeWhile (fun c => c ≠ ','))]
      else []) ++
        (match (s.dropWhile is_space).dropWhile (fun c => c ≠ ',') with
          | c :: r => if c = ',' then pcspLoopFuel fuel r else []
          | [] => [])

theorem pcspLoopFuel_eq : ∀ (fuel : Nat) (s : List Char), s.length < fuel →
    pcspLoopFuel fuel s = pcspLoop s := by
  intro fuel
  induction fuel with
  | zero => intro s h; exact absurd h (by omega)
  | succ n ih =>
    intro s h
    rw [pcspLoop]
    by_cases h1 : s = []
    · simp [pcspLoopFuel, h1]
    simp only [pcspLoopFuel, if_neg h1]
    have h2 : ((s.dropWhile is_space).dropWhile (fun c => c ≠ ',')).length ≤ s.length :=
      le_trans (length_dropWhile_le _ _) (length_dropWhile_le _ _)
    cases hr : (s.dropWhile is_space).dropWhile (fun c => c ≠ ',') with
    | nil => simp only [hr]
    | cons c r =>
      simp only [hr]
      rw [hr] at h2
      simp at h2
      by_cases hc : c = ','
      · rw [if_pos hc, if_pos hc, ih r (by omega)]
      · rw [if_neg hc, if_neg hc]

/-- Evaluation form of parse_comma_separated_string_port. -/
theorem pcsp_eval (s : List Char) :
    parse_comma_separated_string_port s = pcspLoopFuel (s.length + 1) s :=
  (pcspLoopFuel_eq (s.length + 1) s (by omega)).symm

/-- Modelled from the spec: the comma-delimited fields of an input text, the
reference decomposition named by the claims about the list parsers (one field
per comma-separated position, empty fields included). -/
def csvFields : List Char → List (List Char)
  | [] => [[]]
  | c :: t =>
    if c = ',' then [] :: csvFields t
    else
      match csvFields t with
      | f :: fs => (c :: f) :: fs
      | [] => [[c]]

/-- Modelled from the spec: trimming leading and trailing whitespace from a
field, the reference normalisation named by the claims about the list
parsers. -/
def trimField (l : List Char) : List Char :=
  rtrim (l.dropWhile is_space)

theorem takeWhile_append_all {α : Type} {p : α → Bool} :
    ∀ (xs ys : List α), (∀ a ∈ xs, p a = true) →
      (xs ++ ys).takeWhile p = xs ++ ys.takeWhile p := by
  intro xs ys h
  induction xs with
  | nil => simp
  | cons a t ih =>
    have ha : p a = true := h a (by simp)
    simp only [List.cons_append, List.takeWhile_cons, ha, if_pos]
    rw [ih (fun b hb => h b (by simp [hb]))]

theorem dropWhile_append_all {α : Type} {p : α → Bool} :
    ∀ (xs ys : List α), (∀ a ∈ xs, p a = true) →
      (xs ++ ys).dropWhile p = ys.dropWhile p := by
  intro xs ys h
  induction xs with
  | nil => simp
  | cons a t ih =>
    have ha : p a = true := h a (by simp)
    simp only [List.cons_append, List.dropWhile_cons, ha, if_pos]
    exact ih (fun b hb => h b (by simp [hb]))

theorem takeWhile_cons_false {α : Type} {p : α → Bool} {a : α} (l : List α)
    (h : p a = false) : (a :: l).takeWhile p = [] := by
  simp [List.takeWhile_cons, h]

theorem dropWhile_cons_false {α : Type} {p : α → Bool} {a : α} (l : List α)
    (h : p a = false) : (a :: l).dropWhile p = a :: l := by
  simp [List.dropWhile_cons, h]

theorem dropWhile_head_false {α : Type} {p : α → Bool} :
    ∀ (l : List α) {c : α} {r : List α}, l.dropWhile p = c :: r → p c = false := by
  intro l
  induction l with
  | nil => intro c r h; simp at h
  | cons a t ih =>
    intro c r h
    by_cases ha : p a
    · rw [List.dropWhile_cons, if_pos ha] at h; exact ih h
    · rw [List.dropWhile_cons, if_neg ha] at h
      cases h
      exact Bool.eq_false_iff.mpr ha

theorem sepScan_snd_cases (l : List Char) (sep : Char) :
    (sepScan l sep).2 = 0 ∨ (sepScan l sep).2 = 1 := by
  induction l with
  | nil => simp [sepScan]
  | cons c r ih =>
    by_cases hc : c = sep <;> simp [sepScan, hc, ih]

theorem sepScan_not_found {l : List Char} {sep : Char}
    (h : (sepScan l sep).2 = 0) : (sepScan l sep).1 = l.length := by
  induction l with
  | nil => simp [sepScan]
  | cons c r ih =>
    by_cases hc : c = sep
    · simp [sepScan, hc] at h
    · simp only [sepScan, if_neg hc] at h ⊢
      rw [ih h]
      simp

theorem sepScan_found {sep : Char} : ∀ {l : List Char},
    (sepScan l sep).2 = 1 →
      l.drop (sepScan l sep).1 = sep :: l.drop ((sepScan l sep).1 + 1) := by
  intro l
  induction l with
  | nil => intro h; simp [sepScan] at h
  | cons c r ih =>
    intro h
    by_cases hc : c = sep
    · simp [sepScan, hc]
    · simp only [sepScan, if_neg hc] at h ⊢
      have := ih h
      simpa using this

/-- C10: for every input string s and separator byte, split_string
reconstructs the input exactly: either s is before ++ after with after empty
(separator not found), or s is before, the separator byte, then after; no
byte is lost or duplicated. -/
theorem c10_split_reconstruct (s : List Char) (sep : Char) :
    (s = (split_string s sep).1 ++ (split_string s sep).2 ∧ (split_string s sep).2 = [])
    ∨ s = (split_string s sep).1 ++ sep :: (split_string s sep).2 := by
  match s with
  | [] => left; constructor <;> rfl
  | c0 :: tail0 =>
    simp only [split_string]
    rcases sepScan_snd_cases ((c0 :: tail0).drop
      (if c0 = '"' ∧ sep ≠ '"' then quotePos tail0 else 0)) sep with hf | hf
    · left
      set s := c0 :: tail0 with hs
      set pos0 := if c0 = '"' ∧ sep ≠ '"' then quotePos tail0 else 0 with hpos0
      have h1 : (sepScan (s.drop pos0) sep).1 = (s.drop pos0).length :=
        sepScan_not_found hf
      have h2 : s.length ≤ pos0 + (sepScan (s.drop pos0) sep).1 := by
        rw [h1, List.length_drop]; omega
      constructor
      · rw [List.take_of_length_le h2, List.drop_of_length_le (le_trans h2 (by omega))]
        simp
      · exact List.drop_of_length_le (le_trans h2 (by omega))
    · right
      set s := c0 :: tail0 with hs
      set pos0 := if c0 = '"' ∧ sep ≠ '"' then quotePos tail0 else 0 with hpos0
      set X := (sepScan (s.drop pos0) sep).1 with hX
      have h1 := @sepScan_found sep (s.drop pos0) hf
      rw [List.drop_drop, List.drop_drop] at h1
      rw [hf]
      have h2 : s.drop (pos0 + X) = sep :: s.drop (pos0 + X + 1) := by
        rw [Nat.add_assoc]
        exact h1
      calc s = s.take (pos0 + X) ++ s.drop (pos0 + X) := (List.take_append_drop _ _).symm
        _ = s.take (pos0 + X) ++ sep :: s.drop (pos0 + X + 1) := by rw [h2]

theorem quotePos_no_quote : ∀ l : List Char, '"' ∉ l → quotePos l = l.length := by
  intro l
  induction l with
  | nil => intro _; rfl
  | cons c r ih =>
    intro h
    have hc : c ≠ '"' := fun hc => h (by simp [hc])
    have hq : ('"' : Char) ∉ r := fun hr => h (by simp [hr])
    simp only [quotePos, if_neg hc, ih hq, List.length_cons]
    omega

/-- C6 counterexample: for the input consisting of a double quote, the two
letters a b and a trailing comma, with separator comma, the claim predicts
the whole input as the before slice, but split_string drops the final comma
from it (the quote scan leaves the position at the last byte, not at the end
of input, so a final separator byte is still recognised). -/
theorem c6_counterexample :
    (split_string ("\"ab,".toList) ',').1 ≠ "\"ab,".toList ∧
    split_string ("\"ab,".toList) ',' = ("\"ab".toList, []) := by
  constructor
  · decide
  · decide

/-- C6 amended: for every non-empty input whose first byte is a double quote
and which contains no second double quote, and every separator other than the
double quote, split_string returns the entire input as before and an empty
after slice, except that when the final byte of the input equals the
separator the before slice is the input without that final byte (the
unclosed-quote scan stops at the last byte, so only a final separator byte
can still be recognised; after is empty in both cases). -/
theorem c6_quoted_no_close (s : List Char) (sep : Char)
    (h0 : s ≠ []) (hq : s.head? = some '"') (hnc : '"' ∉ s.tail)
    (hsep : sep ≠ '"') :
    split_string s sep =
      ((if s.getLast? = some sep then s.dropLast else s), []) := by
  obtain ⟨cs, rfl⟩ : ∃ cs, s = '"' :: cs := by
    cases s with
    | nil => exact absurd rfl h0
    | cons c cs =>
      simp only [List.head?_cons, Option.some.injEq] at hq
      exact ⟨cs, by rw [hq]⟩
  simp only [List.tail_cons] at hnc
  have hqn : ('"' : Char) ≠ sep := fun h => hsep h.symm
  simp only [split_string]
  rw [if_pos (show True ∧ sep ≠ '"' from ⟨trivial, hsep⟩),
    quotePos_no_quote cs hnc]
  rcases cs.eq_nil_or_concat' with rfl | ⟨ds, d, rfl⟩
  · have hscan : sepScan (('"' :: ([] : List Char)).drop ([] : List Char).length) sep
        = (1, 0) := by
      simp only [sepScan, List.length_nil, List.drop_zero, if_neg hqn]
    rw [hscan]
    rw [if_neg (show ¬(('"' :: ([] : List Char)).getLast? = some sep) from
      fun hcon => hqn (Option.some.inj hcon))]
    rfl
  · have hdrop : ('"' :: (ds ++ [d])).drop (ds ++ [d]).length = [d] := by
      rw [show ('"' :: (ds ++ [d])) = ('"' :: ds) ++ [d] by simp,
        show (ds ++ [d]).length = ('"' :: ds).length by simp]
      exact List.drop_left _ _
    have hlast : ('"' :: (ds ++ [d])).getLast? = some d := by
      rw [show ('"' :: (ds ++ [d])) = ('"' :: ds) ++ [d] by simp]
      exact List.getLast?_concat _
    rw [hdrop]
    by_cases hd : d = sep
    · have hscan : sepScan [d] sep = (0, 1) := by simp [sepScan, hd]
      rw [hscan, if_pos (by rw [hlast, hd])]
      simp only [Prod.mk.injEq]
      constructor
      · rw [Nat.add_zero, show (ds ++ [d]).length = ('"' :: ds).length by simp,
          show ('"' :: (ds ++ [d])) = ('"' :: ds) ++ [d] by simp]
        rw [List.take_left, List.dropLast_concat]
      · apply List.drop_of_length_le
        simp
    · have hscan : sepScan [d] sep = (1, 0) := by simp [sepScan, hd]
      rw [hscan, if_neg (show ¬(('"' :: (ds ++ [d])).getLast? = some sep) by
        rw [hlast]; simp only [Option.some.injEq]; exact hd)]
      simp only [Prod.mk.injEq]
      constructor
      · apply List.take_of_length_le
        simp
      · apply List.drop_of_length_le
        simp

/-- C6 witness: the amended statement applied to the quoted unclosed input
double-quote a b with separator comma. -/
theorem c6_quoted_no_close_witness :
    ("\"ab".toList ≠ ([] : List Char)) ∧
    split_string ("\"ab".toList) ',' =
      ((if ("\"ab".toList).getLast? = some ',' then ("\"ab".toList).dropLast
        else "\"ab".toList), []) :=
  ⟨by decide, c6_quoted_no_close _ _ (by decide) (by decide) (by decide) (by decide)⟩

/-- C2: in parse_listen_interfaces, when the byte after the device token and
any following whitespace is missing (end of input) or is not a colon, the
whole parse stops at once and returns only the entries accumulated so far:
the entry step yields the abort signal exactly then, an aborting first entry
makes the parse of the remaining input empty, and in particular the input
eth0 space 6881 comma eth1 colon 6881 parses to the empty sequence. -/
theorem c2_missing_colon_hard_stop :
    (∀ s : List Char, (skipSpaces (parseDevice s).2).head? ≠ some ':' →
      parseEntry s = none) ∧
    (∀ s : List Char, parseEntry (skipSpaces s) = none →
      parse_listen_interfaces s = []) ∧
    parse_listen_interfaces ("eth0 6881,eth1:6881".toList) = [] := by
  refine ⟨?_, ?_, ?_⟩
  · intro s h
    unfold parseEntry
    match hm : skipSpaces (parseDevice s).2 with
    | [] => rfl
    | c :: s4 =>
      rw [hm] at h
      simp only [List.head?_cons, ne_eq, Option.some.injEq] at h
      exact if_neg h
  · intro s h
    rw [parse_listen_interfaces]
    exact parseLoop_entry_none h
  · rw [parse_eval]; decide

/-- C2 witness: the input eth0 space 6881 has a non-colon byte after its
device token, so the entry step aborts and the parse is empty. -/
theorem c2_missing_colon_hard_stop_witness :
    parseEntry ("eth0 6881".toList) = none ∧
    parse_listen_interfaces ("eth0 6881".toList) = [] :=
  ⟨c2_missing_colon_hard_stop.1 _ (by decide),
    c2_missing_colon_hard_stop.2.1 _ (c2_missing_colon_hard_stop.1 _ (by decide))⟩

/-- C3: in parse_listen_interfaces, an entry whose port text is empty, longer
than five digits, or out of the range 0..65535 is marked invalid, an invalid
entry is left out of the output while parsing continues with the rest of the
input, and in particular eth0 colon 6881 comma eth1 colon 99999 parses to the
single entry (eth0, 6881, no ssl). -/
theorem c3_invalid_port_dropped :
    (∀ ptext : List Char,
      (ptext = [] ∨ 5 < ptext.length ∨ (atoi_digits ptext : Int) < 0 ∨
        65535 < (atoi_digits ptext : Int)) →
      portValue ptext = -1) ∧
    (∀ s rest : List Char, parseEntry (skipSpaces s) = some (none, rest) →
      parse_listen_interfaces s = parse_listen_interfaces rest) ∧
    parse_listen_interfaces ("eth0:6881,eth1:99999".toList)
      = [⟨"eth0".toList, 6881, false⟩] := by
  refine ⟨?_, ?_, ?_⟩
  · intro ptext h
    unfold portValue
    by_cases hA : ptext = [] ∨ ptext.length > 5
    · rw [if_pos hA]
    · rw [if_neg hA]
      show (if (atoi_digits ptext : Int) < 0 ∨ (atoi_digits ptext : Int) > 65535
        then (-1 : Int) else (atoi_digits ptext : Int)) = -1
      rcases h with h | h | h | h
      · exact absurd (Or.inl h) hA
      · exact absurd (Or.inr h) hA
      · rw [if_pos (Or.inl h)]
      · rw [if_pos (Or.inr h)]
  · intro s rest h
    rw [parse_listen_interfaces, parse_listen_interfaces]
    exact parseLoop_entry_skip h
  · rw [parse_eval]; decide

/-- C3 witness: the port text 99999 is marked invalid, and an input whose
first entry has that port parses to the same result as the input after the
comma. -/
theorem c3_invalid_port_dropped_witness :
    portValue ("99999".toList) = -1 ∧
    parse_listen_interfaces ("eth1:99999,eth0:1".toList)
      = parse_listen_interfaces ("eth0:1".toList) :=
  ⟨c3_invalid_port_dropped.1 _ (by decide),
    c3_invalid_port_dropped.2.1 ("eth1:99999,eth0:1".toList) ("eth0:1".toList) (by decide)⟩

/-- C5: when an entry starts with an opening bracket, the device scan
consumes the bracket, collects the bytes up to the closing bracket
(discarding the bracket itself), then skips everything up to the next colon
(or to the end of input when no colon follows), and in particular the
bracketed IPv6 input colon colon 1 with port 6881 parses to the single entry
(colon colon 1, 6881, no ssl). -/
theorem c5_bracket_device :
    (∀ a b r : List Char, ']' ∉ a → ':' ∉ b →
      parseDevice ('[' :: (a ++ ']' :: (b ++ ':' :: r))) = (a, ':' :: r)) ∧
    (∀ a : List Char, ']' ∉ a → ':' ∉ a → parseDevice ('[' :: a) = (a, [])) ∧
    parse_listen_interfaces ("[::1]:6881".toList) = [⟨"::1".toList, 6881, false⟩] := by
  refine ⟨?_, ?_, ?_⟩
  · intro a b r ha hb
    have hpa : ∀ x ∈ a, (fun x => x ≠ ']' : Char → Bool) x = true := by
      intro x hx
      simp only [ne_eq, decide_eq_true_eq]
      intro he
      exact ha (he ▸ hx)
    have hpb : ∀ x ∈ b, (fun x => x ≠ ':' : Char → Bool) x = true := by
      intro x hx
      simp only [ne_eq, decide_eq_true_eq]
      intro he
      exact hb (he ▸ hx)
    simp only [parseDevice, if_true]
    simp only [Prod.mk.injEq]
    constructor
    · rw [takeWhile_append_all a (']' :: (b ++ ':' :: r)) hpa,
        takeWhile_cons_false _ (by simp)]
      simp
    · rw [dropWhile_append_all a (']' :: (b ++ ':' :: r)) hpa,
        dropWhile_cons_false _ (by simp)]
      rw [List.dropWhile_cons]
      rw [if_pos (by simp)]
      rw [dropWhile_append_all b (':' :: r) hpb, dropWhile_cons_false _ (by simp)]
  · intro a ha hc
    have hpa : ∀ x ∈ a, (fun x => x ≠ ']' : Char → Bool) x = true := by
      intro x hx
      simp only [ne_eq, decide_eq_true_eq]
      intro he
      exact ha (he ▸ hx)
    simp only [parseDevice, if_true]
    simp only [Prod.mk.injEq]
    constructor
    · have := takeWhile_append_all a [] hpa
      simpa using this
    · have := dropWhile_append_all a [] hpa
      simp only [List.append_nil, List.dropWhile_nil] at this
      rw [this]
      rfl
  · rw [parse_eval]; decide

/-- C5 witness: the first part applied to device text colon colon 1 with
trailing junk before the colon, and the second part applied to a bracketed
token that never closes. -/
theorem c5_bracket_device_witness :
    parseDevice ('[' :: ("::1".toList ++ ']' :: ("x".toList ++ ':' :: "6881".toList)))
      = ("::1".toList, ':' :: "6881".toList) ∧
    parseDevice ('[' :: "ab".toList) = ("ab".toList, []) :=
  ⟨c5_bracket_device.1 _ _ _ (by decide) (by decide),
    c5_bracket_device.2.1 _ (by decide) (by decide)⟩

/-- C4 counterexample: the input colon 6881 contains no bracket at all, yet
the parser emits an entry whose device text is empty (the non-bracket device
scan stops immediately at the colon), refuting the claim that a non-empty
device is guaranteed unless an empty bracket pair was supplied. -/
theorem c4_counterexample :
    parse_listen_interfaces (":6881".toList) = [⟨[], 6881, false⟩] ∧
    ('[' ∉ ":6881".toList) := by
  constructor
  · rw [parse_eval]; decide
  · decide

theorem parseTail_fst (dev s4 : List Char) :
    (parseTail dev s4).1 =
      (if portValue ((skipSpaces s4).takeWhile portDigit) ≥ 0
        then some ⟨dev, portValue ((skipSpaces s4).takeWhile portDigit),
          (parseSsl (skipSpaces ((skipSpaces s4).dropWhile portDigit))).1⟩
        else none) := rfl

theorem portValue_range (p : List Char) :
    portValue p = -1 ∨ (0 ≤ portValue p ∧ portValue p ≤ 65535) := by
  simp only [portValue]
  split_ifs with h1 h2
  · left; rfl
  · left; rfl
  · right
    push_neg at h2
    exact ⟨Int.natCast_nonneg _, h2.2⟩

theorem parseEntry_some_port {s : List Char} {i : listen_interface_t}
    {rest : List Char} (h : parseEntry s = some (some i, rest)) :
    0 ≤ i.port ∧ i.port ≤ 65535 := by
  unfold parseEntry at h
  match hm : skipSpaces (parseDevice s).2 with
  | [] => rw [hm] at h; exact absurd h (by simp)
  | c :: s4 =>
    rw [hm] at h
    have h' : (if c = ':' then some (parseTail (parseDevice s).1 s4) else none)
        = some (some i, rest) := h
    by_cases hc : c = ':'
    · rw [if_pos hc] at h'
      have hpt : parseTail (parseDevice s).1 s4 = (some i, rest) := Option.some.inj h'
      have hfst := congrArg Prod.fst hpt
      rw [parseTail_fst] at hfst
      by_cases hge : portValue ((skipSpaces s4).takeWhile portDigit) ≥ 0
      · rw [if_pos hge] at hfst
        have hii := Option.some.inj hfst
        rcases portValue_range ((skipSpaces s4).takeWhile portDigit) with hr | hr
        · rw [hr] at hge
          exact absurd hge (by norm_num)
        · rw [← hii]
          exact hr
      · rw [if_neg hge] at hfst
        exact absurd hfst (by simp)
    · rw [if_neg hc] at h'
      exact absurd h' (by simp)

/-- C4 amended: every ListenInterface record produced by
parse_listen_interfaces has a port in 0..65535; the device text, however, can
be empty even when the input supplied no bracket pair at all, namely whenever
the entry's device token is empty (for example an entry that begins with the
colon, as in the counterexample). -/
theorem c4_port_bounds : ∀ (s : List Char) (i : listen_interface_t),
    i ∈ parse_listen_interfaces s → 0 ≤ i.port ∧ i.port ≤ 65535 := by
  have main : ∀ (n : Nat) (s : List Char), s.length < n → ∀ i ∈ parseLoop s,
      0 ≤ i.port ∧ i.port ≤ 65535 := by
    intro n
    induction n with
    | zero => intro s h; exact absurd h (by omega)
    | succ m ih =>
      intro s hs i hi
      by_cases h1 : s = []
      · rw [h1, parseLoop] at hi
        simp at hi
      by_cases h2 : skipSpaces s = []
      · rw [parseLoop, if_neg h1, if_pos h2] at hi
        simp at hi
      cases hpe : parseEntry (skipSpaces s) with
      | none =>
        rw [parseLoop_entry_none hpe] at hi
        simp at hi
      | some v =>
        obtain ⟨oi, rest⟩ := v
        have hrest : rest.length < s.length :=
          lt_of_lt_of_le (parseEntry_rest_lt hpe) (length_skipSpaces_le s)
        cases oi with
        | none =>
          rw [parseLoop_entry_skip hpe] at hi
          exact ih rest (by omega) i hi
        | some j =>
          rw [parseLoop_entry_keep hpe] at hi
          rcases List.mem_cons.mp hi with rfl | hi2
          · exact parseEntry_some_port hpe
          · exact ih rest (by omega) i hi2
  intro s i hi
  exact main (s.length + 1) s (by omega) i hi

/-- C4 witness: the amended invariant applied to the entry produced for the
input eth0 colon 6881. -/
theorem c4_port_bounds_witness :
    ((⟨"eth0".toList, 6881, false⟩ : listen_interface_t) ∈
      parse_listen_interfaces ("eth0:6881".toList)) ∧
    (0 ≤ (⟨"eth0".toList, 6881, false⟩ : listen_interface_t).port ∧
      (⟨"eth0".toList, 6881, false⟩ : listen_interface_t).port ≤ 65535) :=
  ⟨by simp only [parse_eval]; decide,
    c4_port_bounds ("eth0:6881".toList) _ (by simp only [parse_eval]; decide)⟩

theorem digitChar_toNat (r : Nat) (h : r < 10) :
    (Char.ofNat ('0'.toNat + r)).toNat = '0'.toNat + r := by
  interval_cases r <;> decide

theorem digitChar_is_digit (r : Nat) (h : r < 10) :
    is_digit (Char.ofNat ('0'.toNat + r)) = true := by
  interval_cases r <;> decide

theorem uintDigits_ne_nil (un : Nat) : uintDigits un ≠ [] := by
  rw [uintDigits]
  split
  · simp
  · simp

theorem uintDigits_all_digits : ∀ (n un : Nat), un < n →
    ∀ c ∈ uintDigits un, is_digit c = true := by
  intro n
  induction n with
  | zero => intro un h; exact absurd h (by omega)
  | succ m ih =>
    intro un hun c hc
    rw [uintDigits] at hc
    split at hc
    · simp only [List.mem_singleton] at hc
      rw [hc]
      exact digitChar_is_digit (un % 10) (by omega)
    · rename_i h0
      rcases List.mem_append.mp hc with hl | hr
      · exact ih (un / 10) (by omega) c hl
      · simp only [List.mem_singleton] at hr
        rw [hr]
        exact digitChar_is_digit (un % 10) (by omega)

theorem atoi_uintDigits : ∀ (n un : Nat), un < n →
    atoi_digits (uintDigits un) = un := by
  intro n
  induction n with
  | zero => intro un h; exact absurd h (by omega)
  | succ m ih =>
    intro un hun
    rw [uintDigits]
    split
    · rename_i h0
      show atoi_digits [Char.ofNat ('0'.toNat + un % 10)] = un
      unfold atoi_digits
      simp only [List.foldl_cons, List.foldl_nil]
      rw [digitChar_toNat (un % 10) (by omega)]
      omega
    · rename_i h0
      show atoi_digits (uintDigits (un / 10) ++ [Char.ofNat ('0'.toNat + un % 10)]) = un
      unfold atoi_digits
      rw [List.foldl_append]
      simp only [List.foldl_cons, List.foldl_nil]
      have hx : List.foldl (fun a c => a * 10 + (c.toNat - '0'.toNat)) 0
          (uintDigits (un / 10)) = un / 10 := ih (un / 10) (by omega)
      rw [hx, digitChar_toNat (un % 10) (by omega)]
      omega

theorem uintDigits_head_ne_zero : ∀ (n un : Nat), un < n → un ≠ 0 →
    (uintDigits un).head? ≠ some '0' := by
  intro n
  induction n with
  | zero => intro un h; exact absurd h (by omega)
  | succ m ih =>
    intro un hun hun0
    rw [uintDigits]
    split
    · rename_i h0
      simp only [List.head?_cons, ne_eq, Option.some.injEq]
      intro hd
      have := congrArg Char.toNat hd
      rw [digitChar_toNat (un % 10) (by omega)] at this
      have h48 : ('0' : Char).toNat = 48 := rfl
      rw [h48] at this
      simp at this
      omega
    · rename_i h0
      cases hxs : uintDigits (un / 10) with
      | nil => exact absurd hxs (uintDigits_ne_nil _)
      | cons a t =>
        have := ih (un / 10) (by omega) (by omega)
        rw [hxs] at this
        simpa using this

theorem uintDigits_length_le : ∀ (k un : Nat), un < 10 ^ (k + 1) →
    (uintDigits un).length ≤ k + 1 := by
  intro k
  induction k with
  | zero =>
    intro un h
    norm_num at h
    rw [uintDigits, dif_pos (by omega)]
    simp
  | succ m ih =>
    intro un h
    rw [uintDigits]
    split
    · simp
    · rename_i h0
      have h1 : un / 10 < 10 ^ (m + 1) := by
        apply (Nat.div_lt_iff_lt_mul (by norm_num)).mpr
        rw [← pow_succ]
        exact h
      have h2 := ih (un / 10) h1
      simp only [List.length_append, List.length_singleton]
      omega

/-- C9: for every signed 64-bit integer, including INT64_MIN, to_string
produces the minimal canonical decimal representation: the minus sign appears
exactly for negative inputs, the digit part consists of decimal digits whose
value is the absolute value of the input (computed in unsigned arithmetic,
which is what the first conjunct states through natAbs), with no leading zero
except for the single digit 0 when the input is zero. -/
theorem c9_to_string_canonical (n : Int) (h1 : -(2 ^ 63) ≤ n) (h2 : n < 2 ^ 63) :
    to_string n = (if n < 0 then ['-'] else []) ++ uintDigits n.natAbs ∧
    (∀ c ∈ uintDigits n.natAbs, is_digit c = true) ∧
    (atoi_digits (uintDigits n.natAbs) : Int) = n.natAbs ∧
    ((uintDigits n.natAbs).head? = some '0' → n = 0) ∧
    (n = 0 → to_string n = ['0']) := by
  have hpZ : (2 : Int) ^ 64 = 18446744073709551616 := by norm_num
  have hpZ63 : (2 : Int) ^ 63 = 9223372036854775808 := by norm_num
  have hpN : (2 : Nat) ^ 64 = 18446744073709551616 := by norm_num
  have hun : (if n < 0 then ((2 ^ 64 - 1) - (n % 2 ^ 64).toNat + 1) % 2 ^ 64
      else (n % 2 ^ 64).toNat) = n.natAbs := by
    by_cases hn : n < 0
    · rw [if_pos hn]
      have hm : n % 2 ^ 64 = n + 2 ^ 64 := by
        rw [hpZ]
        rw [hpZ63] at h1
        omega
      rw [hm, hpN, hpZ]
      rw [hpZ63] at h1
      omega
    · rw [if_neg hn]
      have hm : n % 2 ^ 64 = n := by
        rw [hpZ]
        rw [hpZ63] at h2
        omega
      rw [hm]
      omega
  have hmain : to_string n = (if n < 0 then ['-'] else []) ++ uintDigits n.natAbs := by
    simp only [to_string]
    rw [hun]
  refine ⟨hmain, ?_, ?_, ?_, ?_⟩
  · exact uintDigits_all_digits (n.natAbs + 1) n.natAbs (by omega)
  · exact_mod_cast atoi_uintDigits (n.natAbs + 1) n.natAbs (by omega)
  · intro hh
    by_contra hn0
    have hna : n.natAbs ≠ 0 := by
      intro hz
      exact hn0 (Int.natAbs_eq_zero.mp hz)
    exact uintDigits_head_ne_zero (n.natAbs + 1) n.natAbs (by omega) hna hh
  · intro hz
    subst hz
    rw [hmain]
    rw [if_neg (by norm_num)]
    rw [show ((0 : Int).natAbs) = 0 from rfl]
    rw [show uintDigits 0 = ['0'] by rw [uintDigits]; decide]
    rfl

/-- C9 witness: the canonical-representation statement applied to INT64_MIN
itself. -/
theorem c9_to_string_canonical_witness :
    (-(2 ^ 63) ≤ (-(2 ^ 63) : Int)) ∧
    (to_string (-(2 ^ 63)) = (if (-(2 ^ 63) : Int) < 0 then ['-'] else [])
        ++ uintDigits ((-(2 ^ 63) : Int)).natAbs ∧
      (∀ c ∈ uintDigits ((-(2 ^ 63) : Int)).natAbs, is_digit c = true) ∧
      (atoi_digits (uintDigits ((-(2 ^ 63) : Int)).natAbs) : Int)
        = ((-(2 ^ 63) : Int)).natAbs ∧
      ((uintDigits ((-(2 ^ 63) : Int)).natAbs).head? = some '0' →
        (-(2 ^ 63) : Int) = 0) ∧
      ((-(2 ^ 63) : Int) = 0 → to_string (-(2 ^ 63)) = ['0'])) :=
  ⟨by norm_num, c9_to_string_canonical _ (by norm_num) (by norm_num)⟩

theorem csvFields_ne_nil (s : List Char) : csvFields s ≠ [] := by
  cases s with
  | nil => simp [csvFields]
  | cons c t =>
    simp only [csvFields]
    split
    · simp
    · split <;> simp

theorem csvFields_eq (s : List Char) :
    csvFields s = s.takeWhile (fun c => c ≠ ',') ::
      (match s.dropWhile (fun c => c ≠ ',') with
        | c :: r => if c = ',' then csvFields r else []
        | [] => []) := by
  induction s with
  | nil => rfl
  | cons c t ih =>
    by_cases hc : c = ','
    · subst hc
      simp only [csvFields, if_true]
      rw [takeWhile_cons_false _ (by simp), dropWhile_cons_false _ (by simp)]
      simp
    · simp only [csvFields, if_neg hc]
      rw [ih]
      rw [List.takeWhile_cons, List.dropWhile_cons,
        if_pos (show (decide (c ≠ ',')) = true by simp [hc]),
        if_pos (show (decide (c ≠ ',')) = true by simp [hc])]

theorem space_ne_comma : ∀ a : Char, is_space a = true → (decide (a ≠ ',')) = true := by
  intro a ha
  simp only [ne_eq, decide_eq_true_eq]
  rintro rfl
  exact absurd ha (by decide)

theorem dropWhile_dropWhile_of_imp {α : Type} {p q : α → Bool}
    (h : ∀ a, q a = true → p a = true) :
    ∀ l : List α, (l.dropWhile q).dropWhile p = l.dropWhile p := by
  intro l
  induction l with
  | nil => rfl
  | cons a t ih =>
    by_cases hq : q a
    · rw [List.dropWhile_cons, if_pos hq, ih, List.dropWhile_cons, if_pos (h a hq)]
    · rw [List.dropWhile_cons, if_neg hq]

theorem takeWhile_dropWhile_comm {α : Type} {p q : α → Bool}
    (h : ∀ a, q a = true → p a = true) :
    ∀ l : List α, (l.dropWhile q).takeWhile p = (l.takeWhile p).dropWhile q := by
  intro l
  induction l with
  | nil => rfl
  | cons a t ih =>
    by_cases hq : q a
    · rw [List.dropWhile_cons, if_pos hq, ih, List.takeWhile_cons, if_pos (h a hq),
        List.dropWhile_cons, if_pos hq]
    · rw [List.dropWhile_cons, if_neg hq]
      by_cases hp : p a
      · rw [List.takeWhile_cons, if_pos hp, List.dropWhile_cons, if_neg hq]
      · rw [List.takeWhile_cons, if_neg hp]
        rfl

theorem getLast?_of_no_comma {s : List Char}
    (hs : s ≠ []) (h : s.dropWhile (fun c => c ≠ ',') = []) :
    s.getLast? ≠ some ',' := by
  have hall : ∀ a ∈ s, (decide (a ≠ ',')) = true := List.dropWhile_eq_nil_iff.mp h
  rcases s.eq_nil_or_concat' with rfl | ⟨ds, d, rfl⟩
  · exact absurd rfl hs
  · rw [List.getLast?_concat]
    have hd : (decide (d ≠ ',')) = true := hall d (by simp)
    simp only [ne_eq, decide_eq_true_eq] at hd
    simp [hd]

theorem getLast?_comma_split {pre r : List Char} (hr : r ≠ []) :
    (pre ++ ',' :: r).getLast? = r.getLast? := by
  rw [show (pre ++ ',' :: r) = (pre ++ [',']) ++ r by simp]
  exact List.getLast?_append_of_ne_nil _ hr

theorem csvFields_no_comma {s : List Char}
    (h : s.dropWhile (fun c => c ≠ ',') = []) :
    csvFields s = [s.takeWhile (fun c => c ≠ ',')] := by
  rw [csvFields_eq s, h]

theorem csvFields_comma {s r : List Char}
    (h : s.dropWhile (fun c => c ≠ ',') = ',' :: r) :
    csvFields s = s.takeWhile (fun c => c ≠ ',') :: csvFields r := by
  rw [csvFields_eq s, h]
  rfl

theorem pcssLoop_step_nil {s : List Char} (h1 : s ≠ [])
    (h : (s.dropWhile is_space).dropWhile (fun c => c ≠ ',') = []) :
    pcssLoop s = [rtrim ((s.dropWhile is_space).takeWhile (fun c => c ≠ ','))] := by
  rw [pcssLoop, if_neg h1]
  split
  · rename_i c r heq
    rw [h] at heq
    exact absurd heq (by simp)
  · rfl

theorem pcssLoop_step_cons {s r : List Char} (h1 : s ≠ [])
    (h : (s.dropWhile is_space).dropWhile (fun c => c ≠ ',') = ',' :: r) :
    pcssLoop s
      = rtrim ((s.dropWhile is_space).takeWhile (fun c => c ≠ ',')) :: pcssLoop r := by
  rw [pcssLoop, if_neg h1]
  split
  · rename_i c r2 heq
    rw [h] at heq
    simp only [List.cons.injEq] at heq
    obtain ⟨hc, hr2⟩ := heq
    subst hc
    subst hr2
    rw [if_pos rfl]
  · rename_i heq
    rw [h] at heq
    exact absurd heq (by simp)

theorem dropLast_cons_of_ne_nil {α : Type} (a : α) (M : List α) (h : M ≠ []) :
    (a :: M).dropLast = a :: M.dropLast := by
  cases M with
  | nil => exact absurd rfl h
  | cons b t => rfl

/-- C7 counterexample: the input a comma has two comma-delimited fields (the
letter a and the empty field after the final comma), but
parse_comma_separated_string emits only one element, so it does not emit
exactly one element per field and does not preserve this empty field. -/
theorem c7_counterexample :
    parse_comma_separated_string ("a,".toList) = [['a']] ∧
    csvFields ("a,".toList) = [['a'], []] ∧
    (parse_comma_separated_string ("a,".toList)).length
      ≠ (csvFields ("a,".toList)).length := by
  refine ⟨?_, by decide, ?_⟩
  · rw [pcss_eval]; decide
  · rw [pcss_eval]; decide

/-- C7 amended: parse_comma_separated_string emits one element per
comma-delimited field, each trimmed of leading and trailing whitespace, with
empty fields preserved, except that the final field is omitted when it is
empty because the input ends exactly at a comma (or the input itself is
empty): in these cases the loop terminates before visiting the position
after the last comma. -/
theorem c7_fields_trimmed : ∀ s : List Char,
    parse_comma_separated_string s =
      if s = [] ∨ s.getLast? = some ','
      then ((csvFields s).map trimField).dropLast
      else (csvFields s).map trimField := by
  have main : ∀ (n : Nat) (s : List Char), s.length < n →
      pcssLoop s =
        if s = [] ∨ s.getLast? = some ','
        then ((csvFields s).map trimField).dropLast
        else (csvFields s).map trimField := by
    intro n
    induction n with
    | zero => intro s h; exact absurd h (by omega)
    | succ m ih =>
      intro s hs
      by_cases h1 : s = []
      · subst h1
        rw [pcssLoop, if_pos rfl, if_pos (Or.inl rfl)]
        simp [csvFields]
      · have hcomm2 := dropWhile_dropWhile_of_imp space_ne_comma s
        have hcomm1 := takeWhile_dropWhile_comm space_ne_comma s
        cases hr : s.dropWhile (fun c => c ≠ ',') with
        | nil =>
          rw [pcssLoop_step_nil h1 (by rw [hcomm2, hr])]
          rw [if_neg (by
            push_neg
            exact ⟨h1, getLast?_of_no_comma h1 hr⟩)]
          rw [csvFields_no_comma hr]
          rw [List.map_singleton]
          rw [hcomm1]
          rfl
        | cons c r =>
          have hc : c = ',' := by
            have := dropWhile_head_false s hr
            simpa using this
          subst hc
          have hsplit : s = s.takeWhile (fun c => c ≠ ',') ++ ',' :: r := by
            conv_lhs => rw [← List.takeWhile_append_dropWhile
              (p := fun c => c ≠ ',') (l := s)]
            rw [hr]
          have hrlen : r.length < m := by
            have hx : (s.dropWhile (fun c => c ≠ ',')).length ≤ s.length :=
              length_dropWhile_le _ _
            rw [hr] at hx
            simp only [List.length_cons] at hx
            omega
          have hglr : s.getLast? = some ',' ↔ (r = [] ∨ r.getLast? = some ',') := by
            by_cases hrnil : r = []
            · subst hrnil
              constructor
              · intro _; exact Or.inl rfl
              · intro _
                rw [hsplit, show (s.takeWhile (fun c => c ≠ ',') ++ [','])
                    = s.takeWhile (fun c => c ≠ ',') ++ [','] from rfl]
                exact List.getLast?_concat _
            · rw [hsplit, getLast?_comma_split hrnil]
              constructor
              · intro h; exact Or.inr h
              · rintro (rfl | h)
                · exact absurd rfl hrnil
                · exact h
          have hM : (csvFields r).map trimField ≠ [] := by
            intro hcon
            exact csvFields_ne_nil r (List.map_eq_nil.mp hcon)
          rw [pcssLoop_step_cons h1 (by rw [hcomm2, hr])]
          rw [ih r hrlen]
          rw [csvFields_comma hr]
          rw [List.map_cons]
          by_cases hcond : r = [] ∨ r.getLast? = some ','
          · rw [if_pos hcond, if_pos (Or.inr (hglr.mpr hcond))]
            rw [dropLast_cons_of_ne_nil _ _ hM]
            rw [hcomm1]
            rfl
          · rw [if_neg hcond, if_neg (by
              push_neg
              exact ⟨h1, fun hgl => hcond (hglr.mp hgl)⟩)]
            rw [hcomm1]
            rfl
  intro s
  rw [parse_comma_separated_string]
  exact main (s.length + 1) s (by omega)

theorem pcspLoop_step_nil {s : List Char} (h1 : s ≠ [])
    (h : (s.dropWhile is_space).dropWhile (fun c => c ≠ ',') = []) :
    pcspLoop s =
      (if ':' ∈ ((s.dropWhile is_space).takeWhile (fun c => c ≠ ',')).drop 1
        then [mkEntry ((s.dropWhile is_space).takeWhile (fun c => c ≠ ','))]
        else []) := by
  rw [pcspLoop, if_neg h1]
  by_cases hcolon : ':' ∈ ((s.dropWhile is_space).takeWhile (fun c => c ≠ ',')).drop 1
  · rw [if_pos hcolon]
    split
    · rename_i c r heq
      rw [h] at heq
      exact absurd heq (by simp)
    · simp
  · rw [if_neg hcolon]
    split
    · rename_i c r heq
      rw [h] at heq
      exact absurd heq (by simp)
    · simp

theorem pcspLoop_step_cons {s r : List Char} (h1 : s ≠ [])
    (h : (s.dropWhile is_space).dropWhile (fun c => c ≠ ',') = ',' :: r) :
    pcspLoop s =
      (if ':' ∈ ((s.dropWhile is_space).takeWhile (fun c => c ≠ ',')).drop 1
        then [mkEntry ((s.dropWhile is_space).takeWhile (fun c => c ≠ ','))]
        else []) ++ pcspLoop r := by
  rw [pcspLoop, if_neg h1]
  congr 1
  split
  · rename_i c r2 heq
    rw [h] at heq
    simp only [List.cons.injEq] at heq
    obtain ⟨hc, hr2⟩ := heq
    subst hc
    subst hr2
    rw [if_pos rfl]
  · rename_i heq
    rw [h] at heq
    exact absurd heq (by simp)

/-- C8 counterexample: the input colon 80 is a single comma-delimited field
whose colon sits exactly at the trim point (its first byte after leading
whitespace), yet parse_comma_separated_string_port emits no entry for it:
the source requires the last colon to lie strictly after the start
position. -/
theorem c8_counterexample :
    parse_comma_separated_string_port (":80".toList) = [] ∧
    csvFields (":80".toList) = [":80".toList] ∧
    ':' ∈ ((":80".toList).dropWhile is_space) := by
  refine ⟨?_, by decide, by decide⟩
  rw [pcsp_eval]; decide

/-- C8 amended: a comma-delimited field produces an output entry iff the
field contains a colon strictly after the trim point (the position after
leading whitespace); a field whose only colons are at or before the trim
point is skipped entirely.  Stated as an equation: the output is exactly the
per-field entry construction mapped over the trimmed fields that contain a
colon past their first byte. -/
theorem c8_colon_iff : ∀ s : List Char,
    parse_comma_separated_string_port s =
      (((csvFields s).map (fun g => g.dropWhile is_space)).filter
        (fun f => decide (':' ∈ f.drop 1))).map mkEntry := by
  have main : ∀ (n : Nat) (s : List Char), s.length < n →
      pcspLoop s =
        (((csvFields s).map (fun g => g.dropWhile is_space)).filter
          (fun f => decide (':' ∈ f.drop 1))).map mkEntry := by
    intro n
    induction n with
    | zero => intro s h; exact absurd h (by omega)
    | succ m ih =>
      intro s hs
      by_cases h1 : s = []
      · subst h1
        rw [pcspLoop, if_pos rfl]
        simp [csvFields]
      · have hcomm2 := dropWhile_dropWhile_of_imp space_ne_comma s
        have hcomm1 := takeWhile_dropWhile_comm space_ne_comma s
        cases hr : s.dropWhile (fun c => c ≠ ',') with
        | nil =>
          rw [pcspLoop_step_nil h1 (by rw [hcomm2, hr])]
          rw [csvFields_no_comma hr]
          rw [List.map_singleton, List.filter_singleton]
          rw [hcomm1]
          by_cases hcolon :
              ':' ∈ ((s.takeWhile (fun c => c ≠ ',')).dropWhile is_space).drop 1
          · rw [if_pos hcolon, decide_eq_true hcolon, Bool.cond_true]
            rfl
          · rw [if_neg hcolon, decide_eq_false hcolon, Bool.cond_false]
            rfl
        | cons c r =>
          have hc : c = ',' := by
            have := dropWhile_head_false s hr
            simpa using this
          subst hc
          have hrlen : r.length < m := by
            have hx : (s.dropWhile (fun c => c ≠ ',')).length ≤ s.length :=
              length_dropWhile_le _ _
            rw [hr] at hx
            simp only [List.length_cons] at hx
            omega
          rw [pcspLoop_step_cons h1 (by rw [hcomm2, hr])]
          rw [ih r hrlen]
          rw [csvFields_comma hr]
          rw [List.map_cons, List.filter_cons]
          rw [hcomm1]
          by_cases hcolon :
              ':' ∈ ((s.takeWhile (fun c => c ≠ ',')).dropWhile is_space).drop 1
          · rw [if_pos hcolon, decide_eq_true hcolon, if_pos rfl]
            rw [List.map_cons]
            rfl
          · rw [if_neg hcolon, decide_eq_false hcolon, if_neg (by simp)]
            rw [List.nil_append]
  intro s
  rw [parse_comma_separated_string_port]
  exact main (s.length + 1) s (by omega)

/-- Device texts named by the round-trip claim: no whitespace, comma, colon
or bracket bytes. -/
def goodDevChar (c : Char) : Bool :=
  !is_space c && c ≠ ',' && c ≠ ':' && c ≠ '[' && c ≠ ']'

theorem goodDevChar_spec {c : Char} (h : goodDevChar c = true) :
    is_space c = false ∧ c ≠ ',' ∧ c ≠ ':' ∧ c ≠ '[' ∧ c ≠ ']' := by
  unfold goodDevChar at h
  simp only [Bool.and_eq_true, decide_eq_true_eq, Bool.not_eq_true'] at h
  exact ⟨h.1.1.1.1, h.1.1.1.2, h.1.1.2, h.1.2, h.2⟩

theorem is_digit_not_space {c : Char} (h : is_digit c = true) : is_space c = false := by
  by_contra hcon
  have hs : is_space c = true := by
    cases hv : is_space c
    · exact absurd hv hcon
    · rfl
  unfold is_space at hs
  simp only [Bool.or_eq_true, decide_eq_true_eq] at hs
  rcases hs with ((((hx | hx) | hx) | hx) | hx) | hx <;>
    (subst hx; exact absurd h (by decide))

theorem is_digit_portDigit {c : Char} (h : is_digit c = true) : portDigit c = true := by
  unfold portDigit
  rw [h]
  have hne : c ≠ ',' := by
    rintro rfl
    exact absurd h (by decide)
  simp [hne]

theorem to_string_nonneg {n : Int} (h0 : 0 ≤ n) (h1 : n < 2 ^ 64) :
    to_string n = uintDigits n.toNat := by
  have hnn : ¬ n < 0 := by omega
  simp only [to_string]
  rw [if_neg hnn, if_neg hnn]
  rw [List.nil_append]
  congr 1
  have hmod : n % 2 ^ 64 = n := by
    have hp : (2 : Int) ^ 64 = 18446744073709551616 := by norm_num
    rw [hp] at h1 ⊢
    omega
  rw [hmod]

theorem dropWhile_eq_self_of_takeWhile_nil {α : Type} {p : α → Bool} {l : List α}
    (h : l.takeWhile p = []) : l.dropWhile p = l := by
  cases l with
  | nil => rfl
  | cons a t =>
    rw [List.takeWhile_cons] at h
    by_cases hp : p a
    · rw [if_pos hp] at h
      exact absurd h (by simp)
    · exact dropWhile_cons_false _ (by simpa using hp)

theorem portValue_uintDigits (m : Nat) (hm : m ≤ 65535) :
    portValue (uintDigits m) = (m : Int) := by
  unfold portValue
  rw [if_neg (by
    rintro (h | h)
    · exact uintDigits_ne_nil m h
    · have := uintDigits_length_le 4 m (by omega)
      omega)]
  show (if ((atoi_digits (uintDigits m) : Nat) : Int) < 0 ∨
      ((atoi_digits (uintDigits m) : Nat) : Int) > 65535
    then (-1 : Int) else ((atoi_digits (uintDigits m) : Nat) : Int)) = (m : Int)
  rw [atoi_uintDigits (m + 1) m (by omega)]
  rw [if_neg (by
    push_neg
    constructor
    · exact Int.natCast_nonneg m
    · exact_mod_cast hm)]

theorem skipSpaces_digits (m : Nat) (X : List Char) :
    skipSpaces (uintDigits m ++ X) = uintDigits m ++ X := by
  cases hud : uintDigits m with
  | nil => exact absurd hud (uintDigits_ne_nil m)
  | cons a u =>
    have hdig : is_digit a = true :=
      uintDigits_all_digits (m + 1) m (by omega) a (by rw [hud]; simp)
    rw [List.cons_append]
    exact dropWhile_cons_false _ (is_digit_not_space hdig)

theorem parseTail_snd_eq (dev s4 : List Char) :
    (parseTail dev s4).2 =
      skipEntryTail (parseSsl (skipSpaces ((skipSpaces s4).dropWhile portDigit))).2 := rfl

theorem parseTail_digits (dev : List Char) (m : Nat) (hm : m ≤ 65535) (X : List Char)
    (hX1 : X.takeWhile portDigit = []) (hX2 : skipSpaces X = X) :
    parseTail dev (uintDigits m ++ X)
      = (some ⟨dev, (m : Int), (parseSsl X).1⟩, skipEntryTail (parseSsl X).2) := by
  have h5 : skipSpaces (uintDigits m ++ X) = uintDigits m ++ X := skipSpaces_digits m X
  have hdigall : ∀ c ∈ uintDigits m, portDigit c = true := fun c hc =>
    is_digit_portDigit (uintDigits_all_digits (m + 1) m (by omega) c hc)
  have htw : (uintDigits m ++ X).takeWhile portDigit = uintDigits m := by
    rw [takeWhile_append_all _ _ hdigall, hX1, List.append_nil]
  have hdw : (uintDigits m ++ X).dropWhile portDigit = X := by
    rw [dropWhile_append_all _ _ hdigall]
    exact dropWhile_eq_self_of_takeWhile_nil hX1
  have hfst : (parseTail dev (uintDigits m ++ X)).1
      = some ⟨dev, (m : Int), (parseSsl X).1⟩ := by
    rw [parseTail_fst, h5, htw, hdw, hX2, portValue_uintDigits m hm]
    rw [if_pos (Int.natCast_nonneg m)]
  have hsnd : (parseTail dev (uintDigits m ++ X)).2 = skipEntryTail (parseSsl X).2 := by
    rw [parseTail_snd_eq, h5, hdw, hX2]
  rw [← hfst, ← hsnd]

theorem parseDevice_bracket (rest : List Char) :
    parseDevice ('[' :: rest) = (rest.takeWhile (fun x => x ≠ ']'),
      (rest.dropWhile (fun x => x ≠ ']')).dropWhile (fun x => x ≠ ':')) := by
  simp [parseDevice]

theorem parseDevice_no_bracket {s : List Char} (h : s.head? ≠ some '[') :
    parseDevice s = (s.takeWhile (fun x => !is_space x && x ≠ ':'),
      s.dropWhile (fun x => !is_space x && x ≠ ':')) := by
  cases s with
  | nil => rfl
  | cons c rest =>
    simp only [List.head?_cons, ne_eq, Option.some.injEq] at h
    simp only [parseDevice, if_neg h]

theorem parseDevice_print (isV6 : List Char → Bool) (dev : List Char)
    (hdev : ∀ c ∈ dev, goodDevChar c = true) (B : List Char) :
    parseDevice ((if isV6 dev then '[' :: dev ++ [']'] else dev) ++ ':' :: B)
      = (dev, ':' :: B) := by
  by_cases hv : isV6 dev
  · rw [if_pos hv]
    rw [show ('[' :: dev ++ [']']) ++ ':' :: B = '[' :: (dev ++ ']' :: ':' :: B) by simp]
    rw [parseDevice_bracket]
    have hpa : ∀ x ∈ dev, (fun x => decide (x ≠ ']')) x = true := by
      intro x hx
      simp [(goodDevChar_spec (hdev x hx)).2.2.2.2]
    simp only [Prod.mk.injEq]
    constructor
    · rw [takeWhile_append_all dev (']' :: ':' :: B) hpa,
        takeWhile_cons_false _ (by simp), List.append_nil]
    · rw [dropWhile_append_all dev (']' :: ':' :: B) hpa,
        dropWhile_cons_false _ (by simp)]
      rw [List.dropWhile_cons, if_pos (by simp), dropWhile_cons_false _ (by simp)]
  · rw [if_neg hv]
    rw [parseDevice_no_bracket (by
      cases hd : dev with
      | nil => simp
      | cons c dt =>
        have hc := goodDevChar_spec (hdev c (by rw [hd]; simp))
        simp only [List.cons_append, List.head?_cons, ne_eq, Option.some.injEq]
        exact hc.2.2.2.1)]
    have hpa : ∀ x ∈ dev, (fun x => !is_space x && decide (x ≠ ':')) x = true := by
      intro x hx
      have hc := goodDevChar_spec (hdev x hx)
      simp [hc.1, hc.2.2.1]
    simp only [Prod.mk.injEq]
    constructor
    · rw [takeWhile_append_all dev (':' :: B) hpa,
        takeWhile_cons_false _ (by decide), List.append_nil]
    · rw [dropWhile_append_all dev (':' :: B) hpa,
        dropWhile_cons_false _ (by decide)]

/-- The comma-prefixed continuation of the printed form: what
print_listen_interfaces appends after the first entry. -/
def printRest (isV6 : List Char → Bool) : List listen_interface_t → List Char
  | [] => []
  | i :: l => ',' :: (printOne isV6 i ++ printRest isV6 l)

theorem printOne_ne_nil (isV6 : List Char → Bool) (i : listen_interface_t) :
    printOne isV6 i ≠ [] := by
  simp [printOne]

theorem print_foldl (isV6 : List Char → Bool) :
    ∀ (l : List listen_interface_t) (acc : List Char), acc ≠ [] →
      l.foldl (fun ret i =>
        (if ret.isEmpty then ret else ret ++ [',']) ++ printOne isV6 i) acc
        = acc ++ printRest isV6 l := by
  intro l
  induction l with
  | nil => intro acc h; simp [printRest]
  | cons i t ih =>
    intro acc h
    rw [List.foldl_cons]
    have hacc : acc.isEmpty = false := by
      cases acc with
      | nil => exact absurd rfl h
      | cons a u => rfl
    rw [hacc]
    have hne : (acc ++ [',']) ++ printOne isV6 i ≠ [] := by
      intro hcon
      rw [List.append_eq_nil] at hcon
      exact printOne_ne_nil isV6 i hcon.2
    rw [show (if false = true then acc else acc ++ [',']) = acc ++ [','] from rfl]
    rw [ih _ hne]
    simp [printRest]

theorem print_cons (isV6 : List Char → Bool) (i : listen_interface_t)
    (l : List listen_interface_t) :
    print_listen_interfaces isV6 (i :: l) = printOne isV6 i ++ printRest isV6 l := by
  rw [print_listen_interfaces, List.foldl_cons]
  rw [show ((if ([] : List Char).isEmpty then ([] : List Char) else [] ++ [','])
      ++ printOne isV6 i) = printOne isV6 i from by simp]
  exact print_foldl isV6 l _ (printOne_ne_nil isV6 i)

theorem skipSpaces_printOne (isV6 : List Char → Bool) (i : listen_interface_t)
    (hdev : ∀ c ∈ i.device, goodDevChar c = true) (t : List Char) :
    skipSpaces (printOne isV6 i ++ t) = printOne isV6 i ++ t := by
  simp only [printOne]
  by_cases hv : isV6 i.device
  · rw [if_pos hv]
    rw [show (('[' :: i.device ++ [']'])
        ++ ':' :: (to_string i.port ++ (if i.ssl then ['s'] else []))) ++ t
      = '[' :: ((i.device ++ [']'])
        ++ ':' :: (to_string i.port ++ (if i.ssl then ['s'] else [])) ++ t) by simp]
    exact dropWhile_cons_false _ (by decide)
  · rw [if_neg hv]
    cases hd : i.device with
    | nil =>
      simp only [List.nil_append, List.cons_append]
      exact dropWhile_cons_false _ (by decide)
    | cons c dt =>
      have hc := goodDevChar_spec (hdev c (by rw [hd]; simp))
      simp only [List.cons_append]
      exact dropWhile_cons_false _ hc.1

theorem parseTail_print (i : listen_interface_t) (hp0 : 0 ≤ i.port)
    (hp1 : i.port ≤ 65535) (t : List Char) (ht : t = [] ∨ ∃ u, t = ',' :: u) :
    parseTail i.device
        (uintDigits i.port.toNat ++ ((if i.ssl then ['s'] else []) ++ t))
      = (some i, t.tail) := by
  obtain ⟨dv, pt, sl⟩ := i
  simp only at hp0 hp1 ⊢
  have hm : pt.toNat ≤ 65535 := by omega
  have hmi : ((pt.toNat : Nat) : Int) = pt := Int.toNat_of_nonneg hp0
  cases sl with
  | true =>
    rw [show (if (true : Bool) = true then ['s'] else []) = ['s'] from rfl,
      List.singleton_append]
    rw [parseTail_digits dv pt.toNat hm ('s' :: t)
      (takeWhile_cons_false _ (by decide))
      (by exact dropWhile_cons_false _ (by decide))]
    rw [show parseSsl ('s' :: t) = (true, t) from rfl, hmi]
    rcases ht with rfl | ⟨u, rfl⟩
    · rfl
    · rfl
  | false =>
    rw [show (if (false : Bool) = true then ['s'] else []) = ([] : List Char) from rfl,
      List.nil_append]
    rcases ht with rfl | ⟨u, rfl⟩
    · rw [parseTail_digits dv pt.toNat hm [] rfl rfl]
      rw [hmi]
      rfl
    · rw [parseTail_digits dv pt.toNat hm (',' :: u)
        (takeWhile_cons_false _ (by decide))
        (by exact dropWhile_cons_false _ (by decide))]
      rw [hmi]
      rfl

theorem parseEntry_printOne (isV6 : List Char → Bool) (i : listen_interface_t)
    (hdev : ∀ c ∈ i.device, goodDevChar c = true)
    (hp0 : 0 ≤ i.port) (hp1 : i.port ≤ 65535)
    (t : List Char) (ht : t = [] ∨ ∃ u, t = ',' :: u) :
    parseEntry (printOne isV6 i ++ t) = some (some i, t.tail) := by
  have hshape : printOne isV6 i ++ t
      = (if isV6 i.device then '[' :: i.device ++ [']'] else i.device)
        ++ ':' :: (uintDigits i.port.toNat ++ ((if i.ssl then ['s'] else []) ++ t)) := by
    rw [printOne, to_string_nonneg hp0 (lt_of_le_of_lt hp1 (by norm_num))]
    simp [List.append_assoc]
  rw [hshape]
  unfold parseEntry
  rw [parseDevice_print isV6 i.device hdev
    (uintDigits i.port.toNat ++ ((if i.ssl then ['s'] else []) ++ t))]
  show (if ':' = ':'
    then some (parseTail i.device
      (uintDigits i.port.toNat ++ ((if i.ssl then ['s'] else []) ++ t)))
    else none) = some (some i, t.tail)
  rw [if_pos rfl, parseTail_print i hp0 hp1 t ht]

theorem printRest_shape (isV6 : List Char → Bool) (l : List listen_interface_t) :
    printRest isV6 l = [] ∨ ∃ u, printRest isV6 l = ',' :: u := by
  cases l with
  | nil => exact Or.inl rfl
  | cons j r => exact Or.inr ⟨_, rfl⟩

/-- C1: for every sequence of ListenInterface records whose device texts
contain none of comma, colon, brackets or whitespace, and whose ports lie in
the 0..65535 range the data model prescribes, re-parsing the printed form
reproduces the sequence exactly; the printer's external IPv6-literal validity
check is modelled as an arbitrary collaborator predicate isV6 deciding
bracketing. -/
theorem c1_round_trip (isV6 : List Char → Bool) (l : List listen_interface_t)
    (hdev : ∀ i ∈ l, ∀ c ∈ i.device, goodDevChar c = true)
    (hport : ∀ i ∈ l, 0 ≤ i.port ∧ i.port ≤ 65535) :
    parse_listen_interfaces (print_listen_interfaces isV6 l) = l := by
  suffices main : ∀ l : List listen_interface_t,
      (∀ i ∈ l, (∀ c ∈ i.device, goodDevChar c = true)
        ∧ 0 ≤ i.port ∧ i.port ≤ 65535) →
      parse_listen_interfaces (print_listen_interfaces isV6 l) = l by
    exact main l (fun i hi => ⟨hdev i hi, hport i hi⟩)
  intro l
  induction l with
  | nil =>
    intro _
    rw [show print_listen_interfaces isV6 [] = [] from rfl]
    rw [parse_listen_interfaces, parseLoop, if_pos rfl]
  | cons i rest ih =>
    intro hl
    have hD : ∀ c ∈ i.device, goodDevChar c = true := (hl i (by simp)).1
    have hP0 : 0 ≤ i.port := (hl i (by simp)).2.1
    have hP1 : i.port ≤ 65535 := (hl i (by simp)).2.2
    have hlr : ∀ j ∈ rest, (∀ c ∈ j.device, goodDevChar c = true)
        ∧ 0 ≤ j.port ∧ j.port ≤ 65535 := fun j hj => hl j (by simp [hj])
    rw [print_cons]
    have hpe : parseEntry (skipSpaces (printOne isV6 i ++ printRest isV6 rest))
        = some (some i, (printRest isV6 rest).tail) := by
      rw [skipSpaces_printOne isV6 i hD]
      exact parseEntry_printOne isV6 i hD hP0 hP1 _ (printRest_shape isV6 rest)
    rw [parse_listen_interfaces, parseLoop_entry_keep hpe]
    cases rest with
    | nil =>
      rw [show (printRest isV6 ([] : List listen_interface_t)).tail
        = ([] : List Char) from rfl]
      rw [show parseLoop [] = [] from by rw [parseLoop, if_pos rfl]]
    | cons j r2 =>
      rw [show (printRest isV6 (j :: r2)).tail
        = printOne isV6 j ++ printRest isV6 r2 from rfl]
      rw [← print_cons]
      rw [show parseLoop (print_listen_interfaces isV6 (j :: r2))
        = parse_listen_interfaces (print_listen_interfaces isV6 (j :: r2)) from rfl]
      rw [ih hlr]

/-- C1 witness: the round trip applied to a two-entry list where the
collaborator classifies the second device as an IPv6 literal, exercising both
the bracketed and the plain printing branch and the ssl suffix. -/
theorem c1_round_trip_witness :
    parse_listen_interfaces (print_listen_interfaces
        (fun d => d = "abcd".toList)
        [⟨"eth0".toList, 6881, false⟩, ⟨"abcd".toList, 443, true⟩])
      = [⟨"eth0".toList, 6881, false⟩, ⟨"abcd".toList, 443, true⟩] :=
  c1_round_trip (fun d => d = "abcd".toList)
    [⟨"eth0".toList, 6881, false⟩, ⟨"abcd".toList, 443, true⟩]
    (by decide) (by decide)

end StringUtil
